import Mathlib

/-!
Shallow embedding of the trip-segmentation and call-interpolation engine
(`imputecalls.py`): the `mask` / `filter_positions` run segmenter and the
`generate_calls` call generator, together with theorems checking the
specification's claims against the embedded code.

Modelling conventions:
* database rows become structures; a nullable column becomes an `Option`;
* timestamps are carried directly as Unix seconds in `ℚ` (`to_unix` is the
  identity in this model, and `call` keeps the seconds value instead of
  converting it to a zoned datetime);
* Python runtime errors that the source can raise (`TypeError` from ordering
  a `None`, `IndexError` from indexing an empty list, `ValueError` from
  `np.interp` on an empty sample array) are modelled with `Except`;
* `numpy` numerics are over exact rationals, see `interpGo` and `polyfit1`.
-/

deriving instance DecidableEq for Except

namespace ImputeCalls

/-- Python runtime errors reachable in the modelled code paths. -/
inductive PyError where
  | typeError
  | indexError
  | valueError
deriving DecidableEq

/-- One vehicle position row of the `VEHICLE_QUERY` result: trip id (nullable),
next-stop sequence number `seq` (nullable), service date, timestamp (modelled
as Unix seconds) and the derived cumulative `distance` along the route. -/
structure Position where
  tripId : Option Int
  seq : Option Int
  serviceDate : Int
  timestamp : ℚ
  distance : ℚ
deriving DecidableEq

/-- One scheduled stop row of the `SELECT_TRIP_INDEX` result: route id,
direction id, stop id, scheduled sequence number `seq` (nullable) and
cumulative distance along the trip shape. -/
structure StopTime where
  routeId : Int
  directionId : Int
  stopId : Int
  seq : Option Int
  distAlongShape : ℚ
deriving DecidableEq

/-- Output record built by `call`: the timestamp is kept as the Unix-seconds
value handed to `call`, before the source's timezone conversion. -/
structure Call where
  routeId : Int
  directionId : Int
  stopId : Int
  timestamp : ℚ
  method : Char
deriving DecidableEq

/-- `to_unix(dt)`: timestamps are already modelled as Unix seconds. -/
def to_unix (t : ℚ) : ℚ := t

/-- `MAX_TIME_BETWEEN_STOPS` in seconds: declared by the source but not
consulted anywhere in `filter_positions` or `generate_calls`. -/
def MAX_TIME_BETWEEN_STOPS : ℚ := 60 * 30

/-- Python truthiness coercion `position.seq or -2`: both `None` and `0` are
falsy, so both are replaced by `-2`. -/
def seqOrNeg2 : Option Int → Int
  | none => -2
  | some n => if n = 0 then -2 else n

/-- The mask key `lambda x, y: x.seq >= y.seq` on raw (possibly `None`) values;
ordering a `None` against anything raises `TypeError`. -/
def seqGeKey (x y : Position) : Except PyError Bool :=
  match x.seq, y.seq with
  | some a, some b => .ok (decide (b ≤ a))
  | _, _ => .error .typeError

/-- Helper for `mask`: walks the remaining positions, evaluating the key
against the previous position of the ORIGINAL list (matching
`zip(positions[1:], positions)`), keeping a position when the key holds. -/
def maskGo (key : Position → Position → Except PyError Bool) (prev : Position) :
    List Position → Except PyError (List Position)
  | [] => .ok []
  | p :: rest =>
    match key p prev with
    | .error e => .error e
    | .ok b =>
      match maskGo key p rest with
      | .error e => .error e
      | .ok tail => .ok (if b then p :: tail else tail)

/-- `mask(positions, key)`: keeps the first position unconditionally
(`chain([True], filt)`), then keeps each later position exactly when
`key(position, previous original position)` holds. -/
def mask (positions : List Position) (key : Position → Position → Except PyError Bool) :
    Except PyError (List Position) :=
  match positions with
  | [] => .ok []
  | p :: rest =>
    match maskGo key p rest with
    | .error e => .error e
    | .ok tail => .ok (p :: tail)

/-- The new-run test of `filter_positions`:
`position.trip_id != getattr(prev, 'trip_id', None) or
 (position.seq or -2) < getattr(prev, 'seq', -1)`.
`prevSeq` is the raw previous `seq` (`some (-1)` for the initial sentinel);
comparing against a `None` previous seq raises `TypeError`, but only when the
trip ids are equal (Python `or` short-circuits). -/
def newRunChk (prevTrip prevSeq : Option Int) (p : Position) : Except PyError Bool :=
  if p.tripId = prevTrip then
    match prevSeq with
    | none => .error .typeError
    | some v => .ok (decide (seqOrNeg2 p.seq < v))
  else .ok true

/-- `runs[-1].append(position)`: appends to the last run, `none` when the run
list is empty (Python `IndexError`). -/
def appendLast : List (List Position) → Position → Option (List (List Position))
  | [], _ => none
  | [r], p => some [r ++ [p]]
  | r :: r2 :: rs, p => (appendLast (r2 :: rs) p).map (r :: ·)

/-- The `while position is not None` loop of `filter_positions`: start a new
empty run when `newRunChk` fires, then append the position to the last run. -/
def segLoop (prevTrip prevSeq : Option Int) (acc : List (List Position)) :
    List Position → Except PyError (List (List Position))
  | [] => .ok acc
  | p :: rest =>
    match newRunChk prevTrip prevSeq p with
    | .error e => .error e
    | .ok b =>
      match appendLast (if b then acc ++ [[]] else acc) p with
      | none => .error .indexError
      | some acc2 => segLoop p.tripId p.seq acc2 rest

/-- The final list comprehension of `filter_positions`: keep the runs whose
first position's service date equals the target date and apply `mask` with
`seqGeKey` to each kept run; `run[0]` on an empty run raises `IndexError`. -/
def postFilter (date : Int) : List (List Position) → Except PyError (List (List Position))
  | [] => .ok []
  | run :: rest =>
    match run with
    | [] => .error .indexError
    | p :: ps =>
      if p.serviceDate = date then
        match mask (p :: ps) seqGeKey with
        | .error e => .error e
        | .ok m =>
          match postFilter date rest with
          | .error e => .error e
          | .ok r => .ok (m :: r)
      else postFilter date rest

/-- `filter_positions(cursor, date)`: segment the position stream into runs
(initial sentinel: `trip_id` defaults to `None`, `seq` defaults to `-1`), then
date-filter and mask the runs. -/
def filter_positions (stream : List Position) (date : Int) :
    Except PyError (List (List Position)) :=
  match segLoop none (some (-1)) [] stream with
  | .error e => .error e
  | .ok runs => postFilter date runs

/-- Default stop used to totalise list indexing whose bounds the source
guarantees (`stop_positions[ei]` under `ei < len(stoptimes)`, and
`stop_positions[si]` under `si > 0`, which forces `si` to be a found index). -/
def dStop : StopTime := ⟨0, 0, 0, none, 0⟩

/-- `stoptimes[i]` under an in-range guard. -/
def stopAt (stoptimes : List StopTime) (i : Nat) : StopTime :=
  (stoptimes[i]?).getD dStop

/-- `np.interp(x, xp, fp)` over exact rationals, for the sample points listed
as (distance, time) pairs: clamp to the first time below the first distance
and to the last time above the last distance, linear interpolation on the
first segment containing `x` otherwise.  Matches numpy whenever the sample
distances are increasing, which `np.interp` requires of its input. -/
def interpGo (x : ℚ) : List (ℚ × ℚ) → ℚ
  | [] => 0
  | [(_, t)] => t
  | (d1, t1) :: (d2, t2) :: rest =>
    if x < d1 then t1
    else if x < d2 then t1 + (t2 - t1) * (x - d1) / (d2 - d1)
    else interpGo x ((d2, t2) :: rest)

/-- Modelled from the spec and the numpy documentation:
`np.polyfit(xs, ys, 1)` is the degree-1 least-squares fit, returned as
(slope, intercept), i.e. highest-degree coefficient first as numpy does.
The floating-point routine's numeric-failure outcome on a degenerate window
(what §7 of the spec calls a degenerate extrapolation fit, e.g. all sample
distances identical so the normal-equation denominator vanishes) is modelled
as `none`; the exact normal-equation solution is returned otherwise. -/
def polyfit1 (pts : List (ℚ × ℚ)) : Option (ℚ × ℚ) :=
  let n : ℚ := pts.length
  let sx := (pts.map Prod.fst).sum
  let sy := (pts.map Prod.snd).sum
  let sxx := (pts.map (fun p => p.1 * p.1)).sum
  let sxy := (pts.map (fun p => p.1 * p.2)).sum
  let den := n * sxx - sx * sx
  if den = 0 then none
  else some ((n * sxy - sx * sy) / den, (sy * sxx - sx * sxy) / den)

/-- `np.poly1d(coefficients)(x)` for a degree-1 coefficient pair. -/
def poly1dEval (c : ℚ × ℚ) (x : ℚ) : ℚ := c.1 * x + c.2

/-- `call(stoptime, seconds, method=None)`: builds a `Call`; `method or 'I'`
defaults the provenance tag to interpolated. -/
def call (stoptime : StopTime) (seconds : ℚ) (method : Option Char) : Call :=
  ⟨stoptime.routeId, stoptime.directionId, stoptime.stopId, seconds,
    method.getD 'I'⟩

/-- The observed (distance, Unix time) pairs of a run:
`obs_distances` zipped with `obs_times`. -/
def obsPairs (run : List Position) : List (ℚ × ℚ) :=
  run.map (fun p => (p.distance, to_unix p.timestamp))

/-- Start index into the scheduled-stop list: the index of the first scheduled
stop whose `seq` equals the first run position's `seq` (Python `==`, under
which `None` equals only `None`), defaulting to 0 when there is no match or
the run is empty (the caught `IndexError` / `AttributeError` paths). -/
def siOf (run : List Position) (stoptimes : List StopTime) : Nat :=
  match run.head? with
  | none => 0
  | some p => (stoptimes.findIdx? (fun x => decide (x.seq = p.seq))).getD 0

/-- End index: the index of the first scheduled stop whose `seq` equals the
last run position's `seq`, defaulting to `len(stoptimes)` when there is no
match or the run is empty. -/
def eiOf (run : List Position) (stoptimes : List StopTime) : Nat :=
  match run.getLast? with
  | none => stoptimes.length
  | some p => (stoptimes.findIdx? (fun x => decide (x.seq = p.seq))).getD stoptimes.length

/-- The interpolation stage of `generate_calls`:
`np.interp(stop_positions[si:ei], obs_distances, obs_times)` zipped with
`stoptimes[si:ei]` through `call` (default provenance). -/
def interp_calls (run : List Position) (stoptimes : List StopTime) : List Call :=
  ((stoptimes.drop (siOf run stoptimes)).take (eiOf run stoptimes - siOf run stoptimes)).map
    (fun st => call st (interpGo st.distAlongShape (obsPairs run)) none)

/-- The forward-extrapolation stage of `generate_calls`: when
`ei < len(stoptimes)`, fit the last 3 observed (distance, time) pairs
(`obs_distances[-3:]`, `obs_times[-3:]`) and evaluate at `stop_positions[ei]`,
yielding one call tagged 'E'; a degenerate fit (the caught
`ValueError`/`TypeError` path) yields nothing. -/
def forwardPart (run : List Position) (stoptimes : List StopTime) : List Call :=
  if eiOf run stoptimes < stoptimes.length then
    match polyfit1 ((obsPairs run).drop ((obsPairs run).length - 3)) with
    | some c =>
        [call (stopAt stoptimes (eiOf run stoptimes))
          (poly1dEval c (stopAt stoptimes (eiOf run stoptimes)).distAlongShape) (some 'E')]
    | none => []
  else []

/-- The backward-extrapolation stage of `generate_calls`: when `si > 0`, fit
the first 3 observed pairs and evaluate at `stop_positions[si]`, yielding one
call tagged 'S' to be prepended; a degenerate fit yields nothing. -/
def backwardPart (run : List Position) (stoptimes : List StopTime) : List Call :=
  if 0 < siOf run stoptimes then
    match polyfit1 ((obsPairs run).take 3) with
    | some c =>
        [call (stopAt stoptimes (siOf run stoptimes))
          (poly1dEval c (stopAt stoptimes (siOf run stoptimes)).distAlongShape) (some 'S')]
    | none => []
  else []

/-- `generate_calls(run, stoptimes)`: interpolate calls on `[si, ei)`; return
empty when no call was interpolated; when the run has strictly more than 3
positions, append the forward-extrapolated call (tag 'E') and prepend the
backward-extrapolated call (tag 'S') when their guards hold and their fits
are non-degenerate.  An empty run raises `ValueError` (from `np.interp` on an
empty sample-point array). -/
def generate_calls (run : List Position) (stoptimes : List StopTime) :
    Except PyError (List Call) :=
  match run with
  | [] => .error .valueError
  | _ :: _ =>
    let calls := interp_calls run stoptimes
    if calls = [] then .ok []
    else if run.length > 3 then
      .ok (backwardPart run stoptimes ++ calls ++ forwardPart run stoptimes)
    else .ok calls

/-! Concrete inputs used by closed theorems and witnesses. -/

/-- A 3-position run with co-linear (distance, time) samples (0,0), (50,50),
(100,100) and sequence numbers 1, 2, 3. -/
def colinRun : List Position :=
  [⟨some 7, some 1, 0, 0, 0⟩, ⟨some 7, some 2, 0, 50, 50⟩, ⟨some 7, some 3, 0, 100, 100⟩]

/-- Two scheduled stops: one at distance 25 matching the run's first sequence
number, one matching its last. -/
def colinStops : List StopTime :=
  [⟨4, 0, 11, some 1, 25⟩, ⟨4, 0, 12, some 3, 999⟩]

/-- Two positions on the same trip whose sequence number is 0 both times. -/
def zeroSeqP1 : Position := ⟨some 1, some 0, 0, 0, 0⟩

/-- Second position of the zero-sequence stream. -/
def zeroSeqP2 : Position := ⟨some 1, some 0, 0, 10, 10⟩

/-- A 4-position run with non-decreasing distances 0,1,2,3 and non-decreasing
times 0,0,100,100, sequence numbers 10..13. -/
def kinkRun : List Position :=
  [⟨some 1, some 10, 0, 0, 0⟩, ⟨some 1, some 11, 0, 0, 1⟩,
   ⟨some 1, some 12, 0, 100, 2⟩, ⟨some 1, some 13, 0, 100, 3⟩]

/-- Four scheduled stops with non-decreasing distances; the second matches the
run's first sequence number (so `si = 1`) and the fourth matches its last
(so `ei = 3`). -/
def kinkStops : List StopTime :=
  [⟨4, 0, 20, some 5, 5/2⟩, ⟨4, 0, 21, some 10, 5/2⟩,
   ⟨4, 0, 22, some 11, 13/5⟩, ⟨4, 0, 23, some 13, 27/10⟩]

/-- A 4-position run whose first and last sequence numbers both match the
first scheduled stop, making the interpolation range `[0, 0)` empty. -/
def emptyRangeRun : List Position :=
  [⟨some 1, some 1, 0, 0, 0⟩, ⟨some 1, some 1, 0, 1, 1⟩,
   ⟨some 1, some 1, 0, 2, 2⟩, ⟨some 1, some 1, 0, 3, 3⟩]

/-- Two stops for the empty-range run: the first matches sequence 1, the
second matches nothing, so `si = ei = 0 < 2`. -/
def emptyRangeStops : List StopTime :=
  [⟨4, 0, 30, some 1, 0⟩, ⟨4, 0, 31, some 9, 10⟩]

/-- A single-position run whose sequence number is absent. -/
def noSeqRun : List Position := [⟨some 1, none, 0, 0, 0⟩]

/-- Stops for the missing-sequence run: the second stop's own sequence number
is also absent, so Python `None == None` matches it. -/
def noSeqStops : List StopTime := [⟨4, 0, 40, some 5, 0⟩, ⟨4, 0, 41, none, 1⟩]

/-! Theorems settling the claims. -/

/-- C8: for a run of exactly 3 co-linear (distance, time) samples
(0,0), (50,50), (100,100) and a scheduled stop at distance 25 strictly inside
the interpolation index range `[si, ei)`, `generate_calls` produces exactly
one call for that stop with Unix time 25 and the default interpolated tag. -/
theorem c8_colinear_interpolation :
    generate_calls colinRun colinStops = .ok [⟨4, 0, 11, 25, 'I'⟩] ∧
    siOf colinRun colinStops = 0 ∧ eiOf colinRun colinStops = 1 ∧
    colinRun.length = 3 := by
  refine ⟨?_, by decide, by decide, by decide⟩
  norm_num [generate_calls, interp_calls, siOf, eiOf, obsPairs, interpGo, call,
    colinRun, colinStops, to_unix, List.findIdx?, List.take]

/-- The run-boundary predicate as the claim words it: trip id differs from the
previous position's, or the sequence number decreases relative to the previous
position, a missing sequence number being treated as -2 for the comparison. -/
def specClaimBoundary (prev p : Position) : Prop :=
  p.tripId ≠ prev.tripId ∨ p.seq.getD (-2) < prev.seq.getD (-2)

/-- C2 counterexample: two consecutive positions on the same trip, both with
sequence number 0.  The claimed boundary predicate does not hold between them
(the sequence number does not decrease and is not missing), yet
`filter_positions` starts a new run at the second position, returning two
runs; Python truthiness also coerces a present sequence number 0 to -2. -/
theorem c2_counterexample :
    filter_positions [zeroSeqP1, zeroSeqP2] 0 = .ok [[zeroSeqP1], [zeroSeqP2]] ∧
    ¬ specClaimBoundary zeroSeqP1 zeroSeqP2 := by
  constructor
  · decide
  · intro h
    rcases h with h | h
    · exact h rfl
    · exact absurd h (by decide)

/-- C5 counterexample: a run of 4 positions for which `ei` is strictly inside
the scheduled-stop list, yet no forward-extrapolated call is appended: the
interpolation range `[si, ei)` is empty, so `generate_calls` returns the
empty list before attempting extrapolation. -/
theorem c5_counterexample :
    generate_calls emptyRangeRun emptyRangeStops = .ok [] ∧
    3 < emptyRangeRun.length ∧
    eiOf emptyRangeRun emptyRangeStops < emptyRangeStops.length := by decide

/-- C6 counterexample: the first run position's sequence number is absent, but
`si` does not default to 0: Python `None == None` matches the scheduled stop
at index 1 whose own sequence number is also absent. -/
theorem c6_counterexample :
    siOf noSeqRun noSeqStops = 1 ∧ (noSeqRun.map Position.seq) = [none] := by decide

/-- The full output of `generate_calls` on the kink run, used by several
closed statements below. -/
def kinkCalls : List Call :=
  [⟨4, 0, 21, 325/3, 'S'⟩, ⟨4, 0, 21, 100, 'I'⟩,
   ⟨4, 0, 22, 100, 'I'⟩, ⟨4, 0, 23, 305/3, 'E'⟩]

/-- Evaluation of `generate_calls` on the kink run: the backward-extrapolated
call at the front carries time 325/3 ≈ 108.3, above the 100 of the
interpolated call that follows it. -/
theorem generate_calls_kink : generate_calls kinkRun kinkStops = .ok kinkCalls := by
  have h1 : stopAt ([⟨4, 0, 20, some 5, 5/2⟩, ⟨4, 0, 21, some 10, 5/2⟩,
      ⟨4, 0, 22, some 11, 13/5⟩, ⟨4, 0, 23, some 13, 27/10⟩] : List StopTime) 1 =
      ⟨4, 0, 21, some 10, 5/2⟩ := rfl
  have h3 : stopAt ([⟨4, 0, 20, some 5, 5/2⟩, ⟨4, 0, 21, some 10, 5/2⟩,
      ⟨4, 0, 22, some 11, 13/5⟩, ⟨4, 0, 23, some 13, 27/10⟩] : List StopTime) 3 =
      ⟨4, 0, 23, some 13, 27/10⟩ := rfl
  norm_num [generate_calls, interp_calls, siOf, eiOf, obsPairs, interpGo, call,
    kinkRun, kinkStops, kinkCalls, to_unix, List.findIdx?, List.take,
    forwardPart, backwardPart, polyfit1, poly1dEval, h1, h3]
  intro hfalse
  simp at hfalse

/-- C3 counterexample: a run with non-decreasing observed distances and times
and a stop list with non-decreasing scheduled distances for which the
timestamps of the returned calls are NOT non-decreasing in list order: the
backward-extrapolated boundary call prepended at the front overshoots the
interpolated call that follows it (325/3 > 100). -/
theorem c3_counterexample :
    generate_calls kinkRun kinkStops = .ok kinkCalls ∧
    ¬ List.Chain' (fun a b => a ≤ b) (kinkCalls.map Call.timestamp) ∧
    List.Chain' (fun a b => a ≤ b) (kinkRun.map Position.distance) ∧
    List.Chain' (fun a b => a ≤ b) (kinkRun.map Position.timestamp) ∧
    List.Chain' (fun a b => a ≤ b) (kinkStops.map StopTime.distAlongShape) := by
  refine ⟨generate_calls_kink, ?_, ?_, ?_, ?_⟩
  · intro h
    rw [kinkCalls] at h
    simp only [List.map_cons, List.map_nil, List.chain'_cons] at h
    have h1 := h.1
    norm_num at h1
  · norm_num [kinkRun, List.chain'_cons]
  · norm_num [kinkRun, List.chain'_cons]
  · norm_num [kinkStops, List.chain'_cons]

/-- Every call built by the interpolation stage carries the default tag. -/
theorem interp_calls_method (run : List Position) (stoptimes : List StopTime) :
    ∀ c ∈ interp_calls run stoptimes, c.method = 'I' := by
  intro c hc
  simp only [interp_calls, List.mem_map] at hc
  obtain ⟨s, _, rfl⟩ := hc
  rfl

/-- The forward-extrapolation stage yields at most one call, tagged 'E'. -/
theorem forwardPart_spec (run : List Position) (stoptimes : List StopTime) :
    (forwardPart run stoptimes).length ≤ 1 ∧
      ∀ c ∈ forwardPart run stoptimes, c.method = 'E' := by
  unfold forwardPart
  split
  · split <;> simp [call]
  · simp

/-- The backward-extrapolation stage yields at most one call, tagged 'S'. -/
theorem backwardPart_spec (run : List Position) (stoptimes : List StopTime) :
    (backwardPart run stoptimes).length ≤ 1 ∧
      ∀ c ∈ backwardPart run stoptimes, c.method = 'S' := by
  unfold backwardPart
  split
  · split <;> simp [call]
  · simp

/-- C10: every call list returned by `generate_calls` splits as an optional
leading backward-extrapolated call (tag 'S'), a block of interpolated calls
(tag 'I'), and an optional trailing forward-extrapolated call (tag 'E'). -/
theorem c10_method_structure (run : List Position) (stoptimes : List StopTime)
    (out : List Call) (h : generate_calls run stoptimes = .ok out) :
    ∃ s m e : List Call, out = s ++ m ++ e ∧ s.length ≤ 1 ∧ e.length ≤ 1 ∧
      (∀ c ∈ s, c.method = 'S') ∧ (∀ c ∈ m, c.method = 'I') ∧
      (∀ c ∈ e, c.method = 'E') := by
  cases run with
  | nil => simp [generate_calls] at h
  | cons p rest =>
    simp only [generate_calls] at h
    by_cases hc : interp_calls (p :: rest) stoptimes = []
    · rw [if_pos hc] at h
      refine ⟨[], [], [], ?_, by simp, by simp, by simp, by simp, by simp⟩
      cases h
      simp
    · rw [if_neg hc] at h
      by_cases hl : (p :: rest).length > 3
      · rw [if_pos hl] at h
        cases h
        exact ⟨backwardPart (p :: rest) stoptimes, interp_calls (p :: rest) stoptimes,
          forwardPart (p :: rest) stoptimes, rfl,
          (backwardPart_spec _ _).1, (forwardPart_spec _ _).1,
          (backwardPart_spec _ _).2, interp_calls_method _ _, (forwardPart_spec _ _).2⟩
      · rw [if_neg hl] at h
        cases h
        exact ⟨[], interp_calls (p :: rest) stoptimes, [], by simp, by simp, by simp,
          by simp, interp_calls_method _ _, by simp⟩

/-- C10 witness: the decomposition applied to the kink run's output. -/
theorem c10_method_structure_witness :
    ∃ s m e : List Call, kinkCalls = s ++ m ++ e ∧ s.length ≤ 1 ∧ e.length ≤ 1 ∧
      (∀ c ∈ s, c.method = 'S') ∧ (∀ c ∈ m, c.method = 'I') ∧
      (∀ c ∈ e, c.method = 'E') :=
  c10_method_structure kinkRun kinkStops kinkCalls generate_calls_kink

/-- C6 (amended): when no scheduled stop's sequence number equals the first
run position's sequence number — Python equality, under which a missing value
equals only another missing value — `si` defaults to 0; when none equals the
last run position's, `ei` defaults to the length of the scheduled-stop list;
and `generate_calls` surfaces no error on any nonempty run. -/
theorem c6_boundary_index_defaults (run : List Position) (stoptimes : List StopTime)
    (p q : Position) (hp : run.head? = some p) (hq : run.getLast? = some q) :
    ((∀ st ∈ stoptimes, st.seq ≠ p.seq) → siOf run stoptimes = 0) ∧
    ((∀ st ∈ stoptimes, st.seq ≠ q.seq) → eiOf run stoptimes = stoptimes.length) ∧
    ∃ out, generate_calls run stoptimes = .ok out := by
  refine ⟨?_, ?_, ?_⟩
  · intro hno
    have hnone : stoptimes.findIdx? (fun x => decide (x.seq = p.seq)) = none := by
      rw [List.findIdx?_eq_none_iff]
      intro st hst
      simpa using hno st hst
    simp only [siOf, hp, hnone, Option.getD_none]
  · intro hno
    have hnone : stoptimes.findIdx? (fun x => decide (x.seq = q.seq)) = none := by
      rw [List.findIdx?_eq_none_iff]
      intro st hst
      simpa using hno st hst
    simp only [eiOf, hq, hnone, Option.getD_none]
  · cases run with
    | nil => simp at hp
    | cons a l =>
      by_cases hc : interp_calls (a :: l) stoptimes = []
      · exact ⟨[], by simp only [generate_calls]; rw [if_pos hc]⟩
      · by_cases hl : (a :: l).length > 3
        · exact ⟨_, by simp only [generate_calls]; rw [if_neg hc, if_pos hl]⟩
        · exact ⟨_, by simp only [generate_calls]; rw [if_neg hc, if_neg hl]⟩

/-- C6 witness: a run whose boundary sequence numbers match no stop of
`noSeqStops`; both indices default and no error is surfaced. -/
theorem c6_boundary_index_defaults_witness :
    siOf colinRun noSeqStops = 0 ∧ eiOf colinRun noSeqStops = noSeqStops.length ∧
    ∃ out, generate_calls colinRun noSeqStops = .ok out := by
  have h := c6_boundary_index_defaults colinRun noSeqStops
    ⟨some 7, some 1, 0, 0, 0⟩ ⟨some 7, some 3, 0, 100, 100⟩ rfl rfl
  exact ⟨h.1 (by decide), h.2.1 (by decide), h.2.2⟩

/-- C5 (amended): extrapolation requires strictly more than 3 positions and at
least one interpolated call; under those conditions, when `ei` lies within the
scheduled-stop list and the forward fit is non-degenerate, the
forward-extrapolated call tagged 'E' is the last element of the output, and
when `si > 0` and the backward fit is non-degenerate, the
backward-extrapolated call tagged 'S' is the first element; a run of exactly
3 positions returns exactly the interpolated calls, none extrapolated. -/
theorem c5_extrapolation_gate (run : List Position) (stoptimes : List StopTime) :
    (run.length > 3 → interp_calls run stoptimes ≠ [] →
      (∀ c, polyfit1 ((obsPairs run).drop ((obsPairs run).length - 3)) = some c →
        eiOf run stoptimes < stoptimes.length →
        ∃ out, generate_calls run stoptimes = .ok out ∧
          out.getLast? = some (call (stopAt stoptimes (eiOf run stoptimes))
            (poly1dEval c (stopAt stoptimes (eiOf run stoptimes)).distAlongShape)
            (some 'E'))) ∧
      (∀ c, polyfit1 ((obsPairs run).take 3) = some c → 0 < siOf run stoptimes →
        ∃ out, generate_calls run stoptimes = .ok out ∧
          out.head? = some (call (stopAt stoptimes (siOf run stoptimes))
            (poly1dEval c (stopAt stoptimes (siOf run stoptimes)).distAlongShape)
            (some 'S')))) ∧
    (run.length = 3 →
      generate_calls run stoptimes = .ok (interp_calls run stoptimes) ∧
      ∀ c ∈ interp_calls run stoptimes, c.method = 'I') := by
  constructor
  · intro hl hc
    cases run with
    | nil => simp at hl
    | cons a l =>
      have hout : generate_calls (a :: l) stoptimes =
          .ok (backwardPart (a :: l) stoptimes ++ interp_calls (a :: l) stoptimes ++
            forwardPart (a :: l) stoptimes) := by
        simp only [generate_calls]
        rw [if_neg hc, if_pos hl]
      constructor
      · intro c hfit hei
        refine ⟨_, hout, ?_⟩
        have hfwd : forwardPart (a :: l) stoptimes =
            [call (stopAt stoptimes (eiOf (a :: l) stoptimes))
              (poly1dEval c (stopAt stoptimes (eiOf (a :: l) stoptimes)).distAlongShape)
              (some 'E')] := by
          rw [forwardPart, if_pos hei, hfit]
        rw [hfwd, List.getLast?_concat]
      · intro c hfit hsi
        refine ⟨_, hout, ?_⟩
        have hbwd : backwardPart (a :: l) stoptimes =
            [call (stopAt stoptimes (siOf (a :: l) stoptimes))
              (poly1dEval c (stopAt stoptimes (siOf (a :: l) stoptimes)).distAlongShape)
              (some 'S')] := by
          rw [backwardPart, if_pos hsi, hfit]
        rw [hbwd]
        rfl
  · intro hl
    cases run with
    | nil => simp at hl
    | cons a l =>
      refine ⟨?_, interp_calls_method _ _⟩
      by_cases hc : interp_calls (a :: l) stoptimes = []
      · simp only [generate_calls]
        rw [if_pos hc, hc]
      · simp only [generate_calls]
        rw [if_neg hc, if_neg (by rw [hl]; decide)]

/-- C5 witness: on the kink run both extrapolated boundary calls appear at the
expected ends; on the co-linear 3-position run the output is exactly the
interpolated calls. -/
theorem c5_extrapolation_gate_witness :
    (∃ out, generate_calls kinkRun kinkStops = .ok out ∧
      out.getLast? = some (call (stopAt kinkStops (eiOf kinkRun kinkStops))
        (poly1dEval (50, -100/3) (stopAt kinkStops (eiOf kinkRun kinkStops)).distAlongShape)
        (some 'E'))) ∧
    (∃ out, generate_calls kinkRun kinkStops = .ok out ∧
      out.head? = some (call (stopAt kinkStops (siOf kinkRun kinkStops))
        (poly1dEval (50, -50/3) (stopAt kinkStops (siOf kinkRun kinkStops)).distAlongShape)
        (some 'S'))) ∧
    generate_calls colinRun colinStops = .ok (interp_calls colinRun colinStops) := by
  have h := c5_extrapolation_gate kinkRun kinkStops
  have h3 := c5_extrapolation_gate colinRun colinStops
  have hne : interp_calls kinkRun kinkStops ≠ [] := by
    norm_num [interp_calls, siOf, eiOf, kinkRun, kinkStops, List.findIdx?, List.take]
    exact fun h => List.cons_ne_nil _ _ h
  have hfit1 : polyfit1 ((obsPairs kinkRun).drop ((obsPairs kinkRun).length - 3)) =
      some (50, -100/3) := by
    norm_num [polyfit1, obsPairs, kinkRun, to_unix]
  have hfit2 : polyfit1 ((obsPairs kinkRun).take 3) = some (50, -50/3) := by
    norm_num [polyfit1, obsPairs, kinkRun, to_unix, List.take]
  exact ⟨(h.1 (by decide) hne).1 _ hfit1 (by decide),
    (h.1 (by decide) hne).2 _ hfit2 (by decide),
    (h3.2 (by decide)).1⟩

/-- Relation holding between consecutive positions that the segmenter keeps in
the same run: equal trip ids, the earlier sequence number present, and no
regression of the truthiness-coerced later sequence number. -/
def sameRunStep (p q : Position) : Prop :=
  q.tripId = p.tripId ∧ ∃ v, p.seq = some v ∧ v ≤ seqOrNeg2 q.seq

/-- A run boundary as the code computes it: trip id differs, or the previous
raw sequence number is present and exceeds the truthiness-coerced current
one (missing or zero current sequence numbers count as -2). -/
def runBoundary (p q : Position) : Prop :=
  q.tripId ≠ p.tripId ∨ ∃ v, p.seq = some v ∧ seqOrNeg2 q.seq < v

/-- Link between two consecutive runs: the last kept position of the first and
the first position of the second form a boundary. -/
def runLink (r1 r2 : List Position) : Prop :=
  ∀ p q, r1.getLast? = some p → r2.head? = some q → runBoundary p q

/-- A `true` verdict of the new-run test is exactly a `runBoundary`. -/
theorem newRunChk_ok_true {pt ps : Option Int} {q : Position}
    (h : newRunChk pt ps q = .ok true) (p : Position)
    (hpt : p.tripId = pt) (hps : p.seq = ps) : runBoundary p q := by
  rw [newRunChk.eq_def] at h
  split at h
  · rename_i heq
    match ps, hps, h with
    | some v, hps, h =>
      right
      refine ⟨v, hps, ?_⟩
      have hd := Except.ok.inj h
      simpa using of_decide_eq_true hd
  · rename_i hne
    left
    rw [hpt]
    exact hne

/-- A `false` verdict of the new-run test is exactly a `sameRunStep`. -/
theorem newRunChk_ok_false {pt ps : Option Int} {q : Position}
    (h : newRunChk pt ps q = .ok false) (p : Position)
    (hpt : p.tripId = pt) (hps : p.seq = ps) : sameRunStep p q := by
  rw [newRunChk.eq_def] at h
  split at h
  · rename_i heq
    match ps, hps, h with
    | some v, hps, h =>
      refine ⟨by rw [hpt]; exact heq, v, hps, ?_⟩
      have hd := Except.ok.inj h
      have hnd := of_decide_eq_false hd
      omega
  · exact absurd (Except.ok.inj h) (by simp)

/-- Successful append-to-last decomposes the accumulator around its last
run. -/
theorem appendLast_eq_some {acc acc2 : List (List Position)} {p : Position}
    (h : appendLast acc p = some acc2) :
    ∃ rs r, acc = rs ++ [r] ∧ acc2 = rs ++ [r ++ [p]] := by
  induction acc generalizing acc2 with
  | nil => exact Option.noConfusion h
  | cons r0 rest ih =>
    cases rest with
    | nil =>
      rw [appendLast] at h
      cases h
      exact ⟨[], r0, by simp, by simp⟩
    | cons r1 rest2 =>
      rw [appendLast] at h
      cases hh : appendLast (r1 :: rest2) p with
      | none => rw [hh] at h; simp at h
      | some acc3 =>
        rw [hh] at h
        simp only [Option.map_some'] at h
        obtain ⟨rs, r, h1, h2⟩ := ih hh
        cases h
        exact ⟨r0 :: rs, r, by simp [h1], by simp [h2]⟩

/-- Appending to the last run of a decomposed accumulator. -/
theorem appendLast_concat (rs : List (List Position)) (r : List Position)
    (p : Position) : appendLast (rs ++ [r]) p = some (rs ++ [r ++ [p]]) := by
  induction rs with
  | nil => rfl
  | cons r0 rest ih =>
    cases rest with
    | nil => rfl
    | cons r1 rest2 =>
      show (appendLast ((r1 :: rest2) ++ [r]) p).map (r0 :: ·) = _
      rw [ih]
      rfl

/-- Unfolding `segLoop` on a position that starts a new run. -/
theorem segLoop_cons_of_true {pt ps : Option Int} {p : Position}
    (acc : List (List Position)) (rest : List Position)
    (hb : newRunChk pt ps p = .ok true) :
    segLoop pt ps acc (p :: rest) = segLoop p.tripId p.seq (acc ++ [[p]]) rest := by
  rw [segLoop, hb]
  dsimp only
  rw [if_pos rfl, appendLast_concat acc [] p]
  rfl

/-- Unfolding `segLoop` on a position kept in the current run. -/
theorem segLoop_cons_of_false {pt ps : Option Int} {p : Position}
    (acc : List (List Position)) (rest : List Position)
    (hb : newRunChk pt ps p = .ok false) :
    segLoop pt ps acc (p :: rest) =
      match appendLast acc p with
      | none => .error .indexError
      | some acc2 => segLoop p.tripId p.seq acc2 rest := by
  rw [segLoop, hb]
  rfl

/-- Unfolding `segLoop` on a position whose new-run test raises. -/
theorem segLoop_cons_of_error {pt ps : Option Int} {p : Position} {e : PyError}
    (acc : List (List Position)) (rest : List Position)
    (hb : newRunChk pt ps p = .error e) :
    segLoop pt ps acc (p :: rest) = .error e := by
  rw [segLoop, hb]

/-- Loop invariant of the segmentation pass. -/
structure SegInv (pt ps : Option Int) (acc : List (List Position)) : Prop where
  runsNonempty : ∀ r ∈ acc, r ≠ []
  runsChain : ∀ r ∈ acc, r.Chain' sameRunStep
  runsLink : acc.Chain' runLink
  lastFields : ∀ r p, acc.getLast? = some r → r.getLast? = some p →
    p.tripId = pt ∧ p.seq = ps

/-- Main segmentation lemma: a successful `segLoop` extends the accumulator to
a run list that concatenates back to the consumed stream, has only nonempty
runs chained by `sameRunStep` inside and `runLink` between. -/
theorem segLoop_ok (s : List Position) :
    ∀ (pt ps : Option Int) (acc runs : List (List Position)),
      SegInv pt ps acc → segLoop pt ps acc s = .ok runs →
      runs.flatten = acc.flatten ++ s ∧
      (∀ r ∈ runs, r ≠ []) ∧ (∀ r ∈ runs, r.Chain' sameRunStep) ∧
      runs.Chain' runLink := by
  induction s with
  | nil =>
    intro pt ps acc runs inv h
    rw [segLoop] at h
    cases h
    exact ⟨by simp, inv.runsNonempty, inv.runsChain, inv.runsLink⟩
  | cons p rest ih =>
    intro pt ps acc runs inv h
    cases hb : newRunChk pt ps p with
    | error e =>
      rw [segLoop_cons_of_error acc rest hb] at h
      exact absurd h (by simp)
    | ok b =>
      cases b with
      | true =>
        rw [segLoop_cons_of_true acc rest hb] at h
        have inv2 : SegInv p.tripId p.seq (acc ++ [[p]]) := by
          refine ⟨?_, ?_, ?_, ?_⟩
          · intro r hr
            rcases List.mem_append.1 hr with hr | hr
            · exact inv.runsNonempty r hr
            · simp at hr; subst hr; simp
          · intro r hr
            rcases List.mem_append.1 hr with hr | hr
            · exact inv.runsChain r hr
            · simp at hr; subst hr; simp
          · rw [List.chain'_append]
            refine ⟨inv.runsLink, by simp, ?_⟩
            intro x hx y hy
            simp only [List.head?_cons, Option.mem_def, Option.some.injEq] at hy
            subst hy
            intro a q hax hq
            simp only [List.head?_cons, Option.some.injEq] at hq
            subst hq
            have := inv.lastFields x a hx hax
            exact newRunChk_ok_true hb a this.1 this.2
          · intro r q hr hq
            rw [List.getLast?_concat] at hr
            cases hr
            simp only [List.getLast?_singleton, Option.some.injEq] at hq
            subst hq
            exact ⟨rfl, rfl⟩
        have res := ih p.tripId p.seq (acc ++ [[p]]) runs inv2 h
        refine ⟨?_, res.2.1, res.2.2.1, res.2.2.2⟩
        rw [res.1]
        simp
      | false =>
        rw [segLoop_cons_of_false acc rest hb] at h
        cases happ : appendLast acc p with
        | none => rw [happ] at h; exact absurd h (by simp)
        | some acc2 =>
          rw [happ] at h
          obtain ⟨rs, r, hacc, hacc2⟩ := appendLast_eq_some happ
          have hrmem : r ∈ acc := by rw [hacc]; simp
          have hrne : r ≠ [] := inv.runsNonempty r hrmem
          obtain ⟨a, ha⟩ := Option.isSome_iff_exists.1 (List.getLast?_isSome.2 hrne)
          have haccl : acc.getLast? = some r := by rw [hacc, List.getLast?_concat]
          have hfields := inv.lastFields r a haccl ha
          have hstep : sameRunStep a p := newRunChk_ok_false hb a hfields.1 hfields.2
          have inv2 : SegInv p.tripId p.seq acc2 := by
            subst hacc2
            refine ⟨?_, ?_, ?_, ?_⟩
            · intro r2 hr2
              rcases List.mem_append.1 hr2 with hr2 | hr2
              · exact inv.runsNonempty r2 (by rw [hacc]; exact List.mem_append_left _ hr2)
              · simp at hr2; subst hr2; simp
            · intro r2 hr2
              rcases List.mem_append.1 hr2 with hr2 | hr2
              · exact inv.runsChain r2 (by rw [hacc]; exact List.mem_append_left _ hr2)
              · simp only [List.mem_singleton] at hr2
                subst hr2
                rw [List.chain'_append]
                refine ⟨inv.runsChain r hrmem, by simp, ?_⟩
                intro x hx y hy
                simp only [List.head?_cons, Option.mem_def, Option.some.injEq] at hy
                subst hy
                have hxa : x = a := by
                  rw [Option.mem_def, ha] at hx
                  exact (Option.some.inj hx).symm
                subst hxa
                exact hstep
            · have hlinks : (rs ++ [r]).Chain' runLink := by rw [← hacc]; exact inv.runsLink
              rw [List.chain'_append] at hlinks
              rw [List.chain'_append]
              refine ⟨hlinks.1, by simp, ?_⟩
              intro x hx y hy
              simp only [List.head?_cons, Option.mem_def, Option.some.injEq] at hy
              subst hy
              have hlk : runLink x r := by
                have := hlinks.2.2 x hx r (by simp)
                exact this
              intro pl q hpl hq
              apply hlk pl q hpl
              cases r with
              | nil => exact absurd rfl hrne
              | cons r0 rtl =>
                simp only [List.cons_append, List.head?_cons] at hq ⊢
                exact hq
            · intro r2 q hr2 hq
              rw [List.getLast?_concat] at hr2
              cases hr2
              rw [List.getLast?_concat] at hq
              cases hq
              exact ⟨rfl, rfl⟩
          have res := ih p.tripId p.seq acc2 runs inv2 h
          refine ⟨?_, res.2.1, res.2.2.1, res.2.2.2⟩
          rw [res.1, hacc2, hacc]
          simp

/-- C2 (amended): `filter_positions` starts a new run exactly at positions
where the trip id differs from the previous position's, or the
truthiness-coerced sequence number (missing OR ZERO treated as -2) is less
than the previous position's raw sequence number; hence a position with
absent sequence data starts a new run only when the trip id changes or the
previous sequence number exceeds -2 (and the comparison raises `TypeError`
when the previous sequence number is itself missing with equal trip ids). -/
theorem c2_boundary_characterization (s : List Position) (d : Int)
    (runs : List (List Position))
    (h : segLoop none (some (-1)) [] s = .ok runs) :
    runs.flatten = s ∧ (∀ r ∈ runs, r ≠ []) ∧
    (∀ r ∈ runs, r.Chain' sameRunStep) ∧ runs.Chain' runLink ∧
    filter_positions s d = postFilter d runs := by
  have base : SegInv none (some (-1)) [] := ⟨by simp, by simp, by simp, by simp⟩
  have res := segLoop_ok s none (some (-1)) [] runs base h
  refine ⟨by simpa using res.1, res.2.1, res.2.2.1, res.2.2.2, ?_⟩
  rw [filter_positions, h]

/-- C2 witness: on the zero-sequence stream the characterization applies; the
two singleton runs are linked by a code boundary. -/
theorem c2_boundary_characterization_witness :
    [[zeroSeqP1], [zeroSeqP2]].flatten = [zeroSeqP1, zeroSeqP2] ∧
    (∀ r ∈ [[zeroSeqP1], [zeroSeqP2]], r ≠ []) ∧
    (∀ r ∈ [[zeroSeqP1], [zeroSeqP2]], r.Chain' sameRunStep) ∧
    List.Chain' runLink [[zeroSeqP1], [zeroSeqP2]] ∧
    filter_positions [zeroSeqP1, zeroSeqP2] 0 =
      postFilter 0 [[zeroSeqP1], [zeroSeqP2]] :=
  c2_boundary_characterization [zeroSeqP1, zeroSeqP2] 0 [[zeroSeqP1], [zeroSeqP2]]
    (by decide)

/-- Seq values of consecutive kept positions: both present and
non-decreasing. -/
def optSeqLe (a b : Option Int) : Prop :=
  ∃ x y, a = some x ∧ b = some y ∧ x ≤ y

/-- The truthiness coercion never increases a present value. -/
theorem seqOrNeg2_le_self (w : Int) : seqOrNeg2 (some w) ≤ w := by
  rw [seqOrNeg2]
  split <;> omega

/-- On a run whose consecutive positions satisfy `sameRunStep`, a successful
mask keeps every position. -/
theorem maskGo_sameRun {prev : Position} {l m : List Position}
    (hch : List.Chain' sameRunStep (prev :: l))
    (h : maskGo seqGeKey prev l = .ok m) : m = l := by
  induction l generalizing prev m with
  | nil =>
    rw [maskGo] at h
    exact (Except.ok.inj h).symm
  | cons q rest ih =>
    rw [maskGo] at h
    obtain ⟨hstep, hch2⟩ := List.chain'_cons.1 hch
    obtain ⟨htrip, v, hv, hle⟩ := hstep
    cases hq : q.seq with
    | none =>
      rw [seqGeKey, hq, hv] at h
      exact absurd h (by simp)
    | some w =>
      rw [seqGeKey, hq, hv] at h
      have hvw : v ≤ w := by
        rw [hq] at hle
        exact le_trans hle (seqOrNeg2_le_self w)
      cases ht : maskGo seqGeKey q rest with
      | error e => rw [ht] at h; exact absurd h (by simp)
      | ok tail =>
        rw [ht] at h
        dsimp only at h
        rw [decide_eq_true hvw, if_pos rfl] at h
        have := ih hch2 ht
        subst this
        exact (Except.ok.inj h).symm

/-- On such a run the raw sequence numbers of consecutive positions are
present and non-decreasing whenever the mask succeeds. -/
theorem maskGo_seq_chain {prev : Position} {l m : List Position}
    (hch : List.Chain' sameRunStep (prev :: l))
    (h : maskGo seqGeKey prev l = .ok m) :
    List.Chain' optSeqLe ((prev :: l).map Position.seq) := by
  induction l generalizing prev m with
  | nil => simp
  | cons q rest ih =>
    rw [maskGo] at h
    obtain ⟨hstep, hch2⟩ := List.chain'_cons.1 hch
    obtain ⟨htrip, v, hv, hle⟩ := hstep
    cases hq : q.seq with
    | none =>
      rw [seqGeKey, hq, hv] at h
      exact absurd h (by simp)
    | some w =>
      rw [seqGeKey, hq, hv] at h
      have hvw : v ≤ w := by
        rw [hq] at hle
        exact le_trans hle (seqOrNeg2_le_self w)
      cases ht : maskGo seqGeKey q rest with
      | error e => rw [ht] at h; exact absurd h (by simp)
      | ok tail =>
        simp only [List.map_cons, List.chain'_cons]
        exact ⟨⟨v, w, hv, hq, hvw⟩, by simpa using ih hch2 ht⟩

/-- A successful mask of a run with the `sameRunStep` chain is the run itself,
with present, non-decreasing sequence numbers. -/
theorem mask_sameRun {r m : List Position}
    (hch : List.Chain' sameRunStep r) (h : mask r seqGeKey = .ok m) :
    m = r ∧ List.Chain' optSeqLe (m.map Position.seq) := by
  cases r with
  | nil =>
    rw [mask] at h
    have := Except.ok.inj h
    subst this
    exact ⟨rfl, by simp⟩
  | cons p rest =>
    rw [mask] at h
    cases ht : maskGo seqGeKey p rest with
    | error e => rw [ht] at h; exact absurd h (by simp)
    | ok tail =>
      rw [ht] at h
      have htail := maskGo_sameRun hch ht
      subst htail
      have := Except.ok.inj h
      subst this
      exact ⟨rfl, maskGo_seq_chain hch ht⟩

/-- A successful mask keeps the first position at the front. -/
theorem mask_head (key : Position → Position → Except PyError Bool)
    (p : Position) (rest m : List Position)
    (h : mask (p :: rest) key = .ok m) : m.head? = some p := by
  rw [mask] at h
  cases ht : maskGo key p rest with
  | error e => rw [ht] at h; exact absurd h (by simp)
  | ok tail =>
    rw [ht] at h
    have := Except.ok.inj h
    subst this
    rfl

/-- Each output run of a successful `postFilter` is the mask of some input
run. -/
theorem postFilter_mem {d : Int} {runs out : List (List Position)}
    (h : postFilter d runs = .ok out) :
    ∀ m ∈ out, ∃ r ∈ runs, mask r seqGeKey = .ok m := by
  induction runs generalizing out with
  | nil =>
    rw [postFilter.eq_def] at h
    dsimp only at h
    have := Except.ok.inj h
    subst this
    simp
  | cons run rest ih =>
    cases run with
    | nil =>
      rw [postFilter.eq_def] at h
      exact absurd h (by simp)
    | cons p ps =>
      rw [postFilter.eq_def] at h
      dsimp only at h
      by_cases hd : p.serviceDate = d
      · rw [if_pos hd] at h
        cases hm : mask (p :: ps) seqGeKey with
        | error e => rw [hm] at h; exact absurd h (by simp)
        | ok m0 =>
          rw [hm] at h
          cases hr : postFilter d rest with
          | error e => rw [hr] at h; exact absurd h (by simp)
          | ok out2 =>
            rw [hr] at h
            have := Except.ok.inj h
            subst this
            intro m hm2
            rcases List.mem_cons.1 hm2 with hm2 | hm2
            · subst hm2; exact ⟨p :: ps, by simp, hm⟩
            · obtain ⟨r, hr2, hr3⟩ := ih hr m hm2
              exact ⟨r, by simp [hr2], hr3⟩
      · rw [if_neg hd] at h
        intro m hm2
        obtain ⟨r, hr2, hr3⟩ := ih h m hm2
        exact ⟨r, by simp [hr2], hr3⟩

/-- C1: every run emitted by `filter_positions` has kept positions whose
sequence numbers are present and non-decreasing, and the mask always
preserves a run's first position. -/
theorem c1_masked_runs_monotone (s : List Position) (d : Int)
    (out : List (List Position)) (h : filter_positions s d = .ok out) :
    (∀ r ∈ out, List.Chain' optSeqLe (r.map Position.seq)) ∧
    (∀ (key : Position → Position → Except PyError Bool) (p : Position)
      (rest m : List Position), mask (p :: rest) key = .ok m → m.head? = some p) := by
  refine ⟨?_, fun key p rest m hm => mask_head key p rest m hm⟩
  intro r hr
  rw [filter_positions] at h
  cases hseg : segLoop none (some (-1)) [] s with
  | error e => rw [hseg] at h; exact absurd h (by simp)
  | ok runs =>
    rw [hseg] at h
    have base : SegInv none (some (-1)) [] := ⟨by simp, by simp, by simp, by simp⟩
    have res := segLoop_ok s none (some (-1)) [] runs base hseg
    obtain ⟨r0, hr0, hmask⟩ := postFilter_mem h r hr
    exact (mask_sameRun (res.2.2.1 r0 hr0) hmask).2

/-- C1 witness: the characterization applied to the zero-sequence stream. -/
theorem c1_masked_runs_monotone_witness :
    (∀ r ∈ [[zeroSeqP1], [zeroSeqP2]], List.Chain' optSeqLe (r.map Position.seq)) ∧
    (∀ (key : Position → Position → Except PyError Bool) (p : Position)
      (rest m : List Position), mask (p :: rest) key = .ok m → m.head? = some p) :=
  c1_masked_runs_monotone [zeroSeqP1, zeroSeqP2] 0 [[zeroSeqP1], [zeroSeqP2]]
    (by decide)

/-- The date test of the final comprehension, as a Boolean on runs. -/
def dateKeep (d : Int) (r : List Position) : Bool :=
  match r.head? with
  | some p => decide (p.serviceDate = d)
  | none => false

/-- A successful `postFilter` masks exactly the runs whose first position's
service date matches, in order. -/
theorem postFilter_forall2 {d : Int} {runs out : List (List Position)}
    (h : postFilter d runs = .ok out) :
    List.Forall₂ (fun r m => mask r seqGeKey = .ok m) (runs.filter (dateKeep d)) out := by
  induction runs generalizing out with
  | nil =>
    rw [postFilter.eq_def] at h
    dsimp only at h
    have := Except.ok.inj h
    subst this
    simp
  | cons run rest ih =>
    cases run with
    | nil =>
      rw [postFilter.eq_def] at h
      exact absurd h (by simp)
    | cons p ps =>
      rw [postFilter.eq_def] at h
      dsimp only at h
      by_cases hd : p.serviceDate = d
      · rw [if_pos hd] at h
        cases hm : mask (p :: ps) seqGeKey with
        | error e => rw [hm] at h; exact absurd h (by simp)
        | ok m0 =>
          rw [hm] at h
          cases hr : postFilter d rest with
          | error e => rw [hr] at h; exact absurd h (by simp)
          | ok out2 =>
            rw [hr] at h
            have := Except.ok.inj h
            subst this
            rw [List.filter_cons_of_pos (by simp [dateKeep, hd])]
            exact List.Forall₂.cons hm (ih hr)
      · rw [if_neg hd] at h
        rw [List.filter_cons_of_neg (by simp [dateKeep, hd])]
        exact ih h

/-- Each output run of a successful `postFilter` starts with a position on
the target date. -/
theorem postFilter_heads {d : Int} {runs out : List (List Position)}
    (h : postFilter d runs = .ok out) :
    ∀ m ∈ out, ∃ p t, m = p :: t ∧ p.serviceDate = d := by
  induction runs generalizing out with
  | nil =>
    rw [postFilter.eq_def] at h
    dsimp only at h
    have := Except.ok.inj h
    subst this
    simp
  | cons run rest ih =>
    cases run with
    | nil =>
      rw [postFilter.eq_def] at h
      exact absurd h (by simp)
    | cons p ps =>
      rw [postFilter.eq_def] at h
      dsimp only at h
      by_cases hd : p.serviceDate = d
      · rw [if_pos hd] at h
        cases hm : mask (p :: ps) seqGeKey with
        | error e => rw [hm] at h; exact absurd h (by simp)
        | ok m0 =>
          rw [hm] at h
          cases hr : postFilter d rest with
          | error e => rw [hr] at h; exact absurd h (by simp)
          | ok out2 =>
            rw [hr] at h
            have := Except.ok.inj h
            subst this
            intro m hm2
            rcases List.mem_cons.1 hm2 with hm2 | hm2
            · subst hm2
              have hhead := mask_head seqGeKey p ps m hm
              cases m with
              | nil => simp at hhead
              | cons q t =>
                simp only [List.head?_cons, Option.some.injEq] at hhead
                subst hhead
                exact ⟨q, t, rfl, hd⟩
            · exact ih hr m hm2
      · rw [if_neg hd] at h
        exact ih h

/-- C7: every run emitted by `filter_positions` starts with a position whose
service date equals the target date, and the emitted runs are exactly the
masks, in order, of the segmented runs whose first position is on the target
date. -/
theorem c7_date_filter (s : List Position) (d : Int)
    (out : List (List Position)) (h : filter_positions s d = .ok out) :
    (∀ r ∈ out, ∃ p t, r = p :: t ∧ p.serviceDate = d) ∧
    ∀ runs, segLoop none (some (-1)) [] s = .ok runs →
      List.Forall₂ (fun r m => mask r seqGeKey = .ok m) (runs.filter (dateKeep d)) out := by
  rw [filter_positions] at h
  cases hseg : segLoop none (some (-1)) [] s with
  | error e => rw [hseg] at h; exact absurd h (by simp)
  | ok runs =>
    rw [hseg] at h
    refine ⟨postFilter_heads h, ?_⟩
    intro runs2 hruns2
    have := Except.ok.inj hruns2
    subst this
    exact postFilter_forall2 h

/-- C7 witness: the date filter applied to the zero-sequence stream. -/
theorem c7_date_filter_witness :
    (∀ r ∈ [[zeroSeqP1], [zeroSeqP2]], ∃ p t, r = p :: t ∧ p.serviceDate = 0) ∧
    ∀ runs, segLoop none (some (-1)) [] [zeroSeqP1, zeroSeqP2] = .ok runs →
      List.Forall₂ (fun r m => mask r seqGeKey = .ok m) (runs.filter (dateKeep 0))
        [[zeroSeqP1], [zeroSeqP2]] :=
  c7_date_filter [zeroSeqP1, zeroSeqP2] 0 [[zeroSeqP1], [zeroSeqP2]] (by decide)

/-- Erase a position's timestamp, keeping every field segmentation reads. -/
def stripTs (p : Position) : Position :=
  ⟨p.tripId, p.seq, p.serviceDate, 0, p.distance⟩

/-- The new-run test ignores timestamps. -/
theorem newRunChk_stripTs (pt ps : Option Int) (p : Position) :
    newRunChk pt ps (stripTs p) = newRunChk pt ps p := rfl

/-- The mask key ignores timestamps. -/
theorem seqGeKey_stripTs (x y : Position) :
    seqGeKey (stripTs x) (stripTs y) = seqGeKey x y := rfl

/-- Append-to-last commutes with timestamp erasure. -/
theorem appendLast_stripTs (acc : List (List Position)) (p : Position) :
    appendLast (acc.map (List.map stripTs)) (stripTs p) =
      (appendLast acc p).map (List.map (List.map stripTs)) := by
  induction acc with
  | nil => rfl
  | cons r0 rest ih =>
    cases rest with
    | nil => simp [appendLast]
    | cons r1 rest2 =>
      show (appendLast ((r1 :: rest2).map (List.map stripTs)) (stripTs p)).map
          (List.map stripTs r0 :: ·) =
        ((appendLast (r1 :: rest2) p).map (r0 :: ·)).map (List.map (List.map stripTs))
      rw [ih]
      cases appendLast (r1 :: rest2) p with
      | none => rfl
      | some a => rfl

/-- The mask walk commutes with timestamp erasure. -/
theorem maskGo_stripTs (prev : Position) (l : List Position) :
    maskGo seqGeKey (stripTs prev) (l.map stripTs) =
      (maskGo seqGeKey prev l).map (List.map stripTs) := by
  induction l generalizing prev with
  | nil => rfl
  | cons p rest ih =>
    simp only [List.map_cons]
    rw [maskGo, maskGo, seqGeKey_stripTs, ih]
    cases seqGeKey p prev with
    | error e => rfl
    | ok b =>
      cases maskGo seqGeKey p rest with
      | error e => rfl
      | ok tail => cases b <;> rfl

/-- `mask` with the sequence key commutes with timestamp erasure. -/
theorem mask_stripTs (r : List Position) :
    mask (r.map stripTs) seqGeKey = (mask r seqGeKey).map (List.map stripTs) := by
  cases r with
  | nil => rfl
  | cons p rest =>
    simp only [List.map_cons]
    rw [mask, mask, maskGo_stripTs]
    cases maskGo seqGeKey p rest with
    | error e => rfl
    | ok tail => rfl

/-- The segmentation loop commutes with timestamp erasure. -/
theorem segLoop_stripTs (s : List Position) :
    ∀ (pt ps : Option Int) (acc : List (List Position)),
      segLoop pt ps (acc.map (List.map stripTs)) (s.map stripTs) =
        (segLoop pt ps acc s).map (List.map (List.map stripTs)) := by
  induction s with
  | nil => intro pt ps acc; rfl
  | cons p rest ih =>
    intro pt ps acc
    simp only [List.map_cons]
    rw [segLoop, segLoop, newRunChk_stripTs]
    cases newRunChk pt ps p with
    | error e => rfl
    | ok b =>
      dsimp only
      have hifs : (if b then acc.map (List.map stripTs) ++ [[]] else
          acc.map (List.map stripTs)) =
          (if b then acc ++ [[]] else acc).map (List.map stripTs) := by
        cases b <;> simp
      rw [hifs, appendLast_stripTs]
      cases appendLast (if b then acc ++ [[]] else acc) p with
      | none => rfl
      | some acc2 =>
        show segLoop (stripTs p).tripId (stripTs p).seq (acc2.map (List.map stripTs))
          (rest.map stripTs) = _
        rw [ih]
        rfl

/-- `postFilter` commutes with timestamp erasure. -/
theorem postFilter_stripTs (d : Int) (runs : List (List Position)) :
    postFilter d (runs.map (List.map stripTs)) =
      (postFilter d runs).map (List.map (List.map stripTs)) := by
  induction runs with
  | nil => rfl
  | cons run rest ih =>
    cases run with
    | nil => rfl
    | cons p ps =>
      simp only [List.map_cons]
      rw [postFilter, postFilter]
      have hdate : (stripTs p).serviceDate = p.serviceDate := rfl
      by_cases hd : p.serviceDate = d
      · rw [if_pos hd, if_pos (hdate.trans hd ▸ rfl)]
        have hm : mask (stripTs p :: ps.map stripTs) seqGeKey =
            (mask (p :: ps) seqGeKey).map (List.map stripTs) := by
          simpa using mask_stripTs (p :: ps)
        rw [hm, ih]
        cases mask (p :: ps) seqGeKey with
        | error e => rfl
        | ok m =>
          cases postFilter d rest with
          | error e => rfl
          | ok r2 => rfl
      · rw [if_neg hd, if_neg (by rw [hdate]; exact hd)]
        exact ih

/-- `filter_positions` commutes with timestamp erasure. -/
theorem filter_positions_stripTs (s : List Position) (d : Int) :
    filter_positions (s.map stripTs) d =
      (filter_positions s d).map (List.map (List.map stripTs)) := by
  rw [filter_positions, filter_positions]
  have hseg := segLoop_stripTs s none (some (-1)) []
  simp only [List.map_nil] at hseg
  rw [hseg]
  cases segLoop none (some (-1)) [] s with
  | error e => rfl
  | ok runs => exact postFilter_stripTs d runs

/-- C9: run segmentation never depends on timestamps: two streams that agree
after timestamp erasure produce the same runs up to timestamp erasure, so the
`MAX_TIME_BETWEEN_STOPS` threshold has no effect on run boundaries. -/
theorem c9_time_gap_ignored (s1 s2 : List Position) (d : Int)
    (hsame : s1.map stripTs = s2.map stripTs) :
    (filter_positions s1 d).map (List.map (List.map stripTs)) =
      (filter_positions s2 d).map (List.map (List.map stripTs)) := by
  rw [← filter_positions_stripTs, ← filter_positions_stripTs, hsame]

/-- Second position of the zero-sequence stream with its timestamp moved far
beyond `MAX_TIME_BETWEEN_STOPS`. -/
def zeroSeqP2Late : Position := ⟨some 1, some 0, 0, 99999, 10⟩

/-- C9 witness: moving a position's timestamp past the declared threshold
leaves the segmentation unchanged up to timestamp erasure. -/
theorem c9_time_gap_ignored_witness :
    (filter_positions [zeroSeqP1, zeroSeqP2] 0).map (List.map (List.map stripTs)) =
      (filter_positions [zeroSeqP1, zeroSeqP2Late] 0).map (List.map (List.map stripTs)) :=
  c9_time_gap_ignored [zeroSeqP1, zeroSeqP2] [zeroSeqP1, zeroSeqP2Late] 0 (by decide)

/-- With non-decreasing sample times, interpolation never drops below the
first sample's time. -/
theorem interpGo_head_le {d t : ℚ} {rest : List (ℚ × ℚ)}
    (ht : List.Chain' (fun a b => a ≤ b) (((d, t) :: rest).map Prod.snd))
    (x : ℚ) : t ≤ interpGo x ((d, t) :: rest) := by
  induction rest generalizing d t with
  | nil => exact le_refl t
  | cons dt2 rest2 ih =>
    obtain ⟨d2, t2⟩ := dt2
    simp only [List.map_cons, List.chain'_cons] at ht
    obtain ⟨htt, ht2⟩ := ht
    rw [interpGo]
    split
    · exact le_refl t
    · split
      · rename_i hx1 hx2
        have h1 : (0:ℚ) ≤ t2 - t := by linarith
        have h2 : (0:ℚ) ≤ x - d := by
          have := not_lt.1 hx1
          linarith
        have h3 : (0:ℚ) < d2 - d := by
          have := not_lt.1 hx1
          linarith
        have h4 : 0 ≤ (t2 - t) * (x - d) / (d2 - d) :=
          div_nonneg (mul_nonneg h1 h2) (le_of_lt h3)
        linarith
      · calc t ≤ t2 := htt
          _ ≤ interpGo x ((d2, t2) :: rest2) := ih (by simpa using ht2)

/-- Interpolation is monotone in its argument over samples with non-decreasing
distances and non-decreasing times. -/
theorem interpGo_mono (x y : ℚ) (hxy : x ≤ y) :
    ∀ pts : List (ℚ × ℚ),
      List.Chain' (fun a b => a ≤ b) (pts.map Prod.fst) →
      List.Chain' (fun a b => a ≤ b) (pts.map Prod.snd) →
      interpGo x pts ≤ interpGo y pts := by
  intro pts
  induction pts with
  | nil => intro _ _; exact le_refl _
  | cons dt1 rest ih =>
    obtain ⟨d1, t1⟩ := dt1
    cases rest with
    | nil => intro _ _; exact le_refl _
    | cons dt2 rest2 =>
      obtain ⟨d2, t2⟩ := dt2
      intro hd ht
      have ht0 := ht
      simp only [List.map_cons, List.chain'_cons] at hd ht
      obtain ⟨hd12, hdtail⟩ := hd
      obtain ⟨ht12, httail⟩ := ht
      by_cases hx1 : x < d1
      · rw [show interpGo x ((d1, t1) :: (d2, t2) :: rest2) = t1 by
          rw [interpGo, if_pos hx1]]
        exact interpGo_head_le ht0 y
      · by_cases hx2 : x < d2
        · have hxd1 : d1 ≤ x := not_lt.1 hx1
          have hd12lt : d1 < d2 := lt_of_le_of_lt hxd1 hx2
          have h1 : (0:ℚ) ≤ t2 - t1 := by linarith
          have h3 : (0:ℚ) < d2 - d1 := by linarith
          rw [show interpGo x ((d1, t1) :: (d2, t2) :: rest2) =
              t1 + (t2 - t1) * (x - d1) / (d2 - d1) by
            rw [interpGo, if_neg hx1, if_pos hx2]]
          by_cases hy2 : y < d2
          · have hy1 : ¬ y < d1 := not_lt.2 (le_trans hxd1 hxy)
            rw [show interpGo y ((d1, t1) :: (d2, t2) :: rest2) =
                t1 + (t2 - t1) * (y - d1) / (d2 - d1) by
              rw [interpGo, if_neg hy1, if_pos hy2]]
            have hmul : (t2 - t1) * (x - d1) ≤ (t2 - t1) * (y - d1) :=
              mul_le_mul_of_nonneg_left (by linarith) h1
            have hdiv : (t2 - t1) * (x - d1) / (d2 - d1) ≤
                (t2 - t1) * (y - d1) / (d2 - d1) := by
              rw [div_eq_mul_inv, div_eq_mul_inv]
              exact mul_le_mul_of_nonneg_right hmul (inv_nonneg.2 (le_of_lt h3))
            linarith
          · have hyd2 : d2 ≤ y := not_lt.1 hy2
            have hy1 : ¬ y < d1 := not_lt.2 (le_trans (le_of_lt hd12lt) hyd2)
            rw [show interpGo y ((d1, t1) :: (d2, t2) :: rest2) =
                interpGo y ((d2, t2) :: rest2) by
              rw [interpGo, if_neg hy1, if_neg hy2]]
            have hub : t1 + (t2 - t1) * (x - d1) / (d2 - d1) ≤ t2 := by
              have hxd : x - d1 ≤ d2 - d1 := by linarith [le_of_lt hx2]
              have hq : (t2 - t1) * (x - d1) / (d2 - d1) ≤ t2 - t1 := by
                rw [div_le_iff₀ h3]
                calc (t2 - t1) * (x - d1) ≤ (t2 - t1) * (d2 - d1) :=
                      mul_le_mul_of_nonneg_left hxd h1
                  _ = (t2 - t1) * (d2 - d1) := rfl
              linarith
            have hlb : t2 ≤ interpGo y ((d2, t2) :: rest2) :=
              interpGo_head_le (by simpa using httail) y
            linarith
        · have hy2 : ¬ y < d2 := not_lt.2 (le_trans (not_lt.1 hx2) hxy)
          have hxd1 : d1 ≤ x := not_lt.1 hx1
          have hy1 : ¬ y < d1 := not_lt.2 (le_trans hxd1 hxy)
          rw [show interpGo x ((d1, t1) :: (d2, t2) :: rest2) =
              interpGo x ((d2, t2) :: rest2) by
            rw [interpGo, if_neg hx1, if_neg hx2],
            show interpGo y ((d1, t1) :: (d2, t2) :: rest2) =
              interpGo y ((d2, t2) :: rest2) by
            rw [interpGo, if_neg hy1, if_neg hy2]]
          exact ih (by simpa using hdtail) (by simpa using httail)

/-- C3 (amended): when the run's observed distances and timestamps are
non-decreasing and the scheduled stops' distances are non-decreasing, the
interpolated calls' timestamps are non-decreasing in list order; runs of at
most 3 positions return exactly those interpolated calls, so their whole
output is covered; extrapolated boundary calls are excluded (they can
overshoot, as the counterexample shows). -/
theorem c3_interpolated_monotone (run : List Position) (stoptimes : List StopTime)
    (hd : List.Chain' (fun a b => a ≤ b) (run.map Position.distance))
    (ht : List.Chain' (fun a b => a ≤ b) (run.map Position.timestamp))
    (hs : List.Chain' (fun a b => a ≤ b) (stoptimes.map StopTime.distAlongShape)) :
    List.Chain' (fun c1 c2 => c1.timestamp ≤ c2.timestamp)
      (interp_calls run stoptimes) ∧
    (run ≠ [] → run.length ≤ 3 →
      generate_calls run stoptimes = .ok (interp_calls run stoptimes)) := by
  constructor
  · rw [interp_calls, List.chain'_map]
    have hsub : ((stoptimes.drop (siOf run stoptimes)).take
        (eiOf run stoptimes - siOf run stoptimes)).Sublist stoptimes :=
      (List.take_sublist _ _).trans (List.drop_sublist _ _)
    have hslice : List.Chain' (fun a b => a ≤ b)
        (((stoptimes.drop (siOf run stoptimes)).take
          (eiOf run stoptimes - siOf run stoptimes)).map StopTime.distAlongShape) :=
      List.Chain'.sublist hs (List.Sublist.map _ hsub)
    have hslice2 := (List.chain'_map StopTime.distAlongShape).1 hslice
    have hobsd : List.Chain' (fun a b => a ≤ b) ((obsPairs run).map Prod.fst) := by
      rw [obsPairs, List.map_map]
      exact hd
    have hobst : List.Chain' (fun a b => a ≤ b) ((obsPairs run).map Prod.snd) := by
      rw [obsPairs, List.map_map]
      exact ht
    exact List.Chain'.imp
      (fun a b hab => interpGo_mono a.distAlongShape b.distAlongShape hab
        (obsPairs run) hobsd hobst) hslice2
  · intro hne hlen
    cases run with
    | nil => exact absurd rfl hne
    | cons a l =>
      simp only [generate_calls]
      by_cases hc : interp_calls (a :: l) stoptimes = []
      · rw [if_pos hc, hc]
      · rw [if_neg hc, if_neg (by omega)]

/-- C3 witness: the interpolated calls of the co-linear run are monotone and
are the whole output of `generate_calls`. -/
theorem c3_interpolated_monotone_witness :
    List.Chain' (fun c1 c2 => c1.timestamp ≤ c2.timestamp)
      (interp_calls colinRun colinStops) ∧
    generate_calls colinRun colinStops = .ok (interp_calls colinRun colinStops) := by
  have h := c3_interpolated_monotone colinRun colinStops
    (by norm_num [colinRun, List.chain'_cons])
    (by norm_num [colinRun, List.chain'_cons])
    (by norm_num [colinStops, List.chain'_cons])
  exact ⟨h.1, h.2 (by decide) (by decide)⟩

end ImputeCalls
